/-
Verification of the Wire-Harness-Color-Sequence-Detector vision pipeline.

Shallow embedding of the pipeline's pure computations:
  * `src/src/tasks/wire_color.py`   — wire colorimeter and sequence matcher
  * `src/src/utils/contour_utils.py` — contour filters over binary masks
  * `src/src/utils/rect_utils.py`    — orientation solver for oriented rectangles
  * `src/src/tasks/wire_roi.py`      — wire-ROI extraction with rotation retry

Modelling conventions:
  * 8-bit LAB pixel values and the derived per-bin statistics are modelled as
    exact rationals (uint8 / float16 values involved are exactly representable);
    the perceptual-space colors fed to the CIEDE2000 metric are modelled as reals.
  * A float value that the Python code turns into NaN is modelled as `none` of
    `Option`; NaN propagation through `delta_e_cie2000` and the IEEE rule
    "NaN ≤ t is false" are reflected in `is_same_wire_color`'s `none` branches.
  * A binary mask is the finite set of its foreground pixel coordinates;
    `cv2.findContours(..., RETR_EXTERNAL, ...)` is modelled as returning the
    top-level 8-connected foreground components (those 4-adjacent to the
    unbounded background region — components nested inside holes of other
    components are not retrieved), filling a retrieved contour covers its
    whole enclosed outer region, and `cv2.contourArea` is an arbitrary area
    measure on components (a parameter `areaFn`), since the exact polygon
    area of the traced boundary is irrelevant to the selection logic.
  * External image primitives used by the ROI extractor (rotation, sub-pixel
    crop, grayscale conversion, thresholding, drawing) are fields of an
    abstract interface `IPT`; the ROI-extractor theorems hold for every
    interpretation of those primitives.
-/
import Mathlib

open Classical

/-! ### Sequence matcher (src/src/tasks/wire_color.py, lines 55-98)

A wire color is a triple of LAB channel values as produced by
`find_wire_lab_color`; each channel is `Option ℝ`, `none` standing for the
float NaN that `np.nanmean`/`np.nanmedian` produce on all-missing data. -/

/-- One wire's LAB color as passed around by the Python code: a triple of
float channel values, each possibly NaN (`none`). -/
abbrev WireLab : Type := Option ℝ × Option ℝ × Option ℝ

/-- Degrees-to-radians conversion used inside the CIEDE2000 formula. -/
noncomputable def radiansOf (x : ℝ) : ℝ := x * Real.pi / 180

/-- Radians-to-degrees conversion used inside the CIEDE2000 formula. -/
noncomputable def degreesOf (x : ℝ) : ℝ := x * 180 / Real.pi

/-- Two-argument arctangent (math library `atan2`), in radians. -/
noncomputable def atan2 (y x : ℝ) : ℝ :=
  if 0 < x then Real.arctan (y / x)
  else if x < 0 ∧ 0 ≤ y then Real.arctan (y / x) + Real.pi
  else if x < 0 ∧ y < 0 then Real.arctan (y / x) - Real.pi
  else if x = 0 ∧ 0 < y then Real.pi / 2
  else if x = 0 ∧ y < 0 then -(Real.pi / 2)
  else 0

/-- CIEDE2000 color difference between two fully defined LAB colors, with the
weighting factors Kl = Kc = Kh = 1 (the values used by
`colormath.color_diff.delta_e_cie2000` at its default arguments, which is how
`is_same_wire_color` calls it). -/
noncomputable def delta_e_cie2000 (L1 a1 b1 L2 a2 b2 : ℝ) : ℝ :=
  let avg_Lp := (L1 + L2) / 2
  let C1 := Real.sqrt (a1 ^ 2 + b1 ^ 2)
  let C2 := Real.sqrt (a2 ^ 2 + b2 ^ 2)
  let avg_C1_C2 := (C1 + C2) / 2
  let G := 0.5 * (1 - Real.sqrt (avg_C1_C2 ^ 7 / (avg_C1_C2 ^ 7 + 25 ^ 7)))
  let a1p := (1 + G) * a1
  let a2p := (1 + G) * a2
  let C1p := Real.sqrt (a1p ^ 2 + b1 ^ 2)
  let C2p := Real.sqrt (a2p ^ 2 + b2 ^ 2)
  let avg_C1p_C2p := (C1p + C2p) / 2
  let h1p0 := degreesOf (atan2 b1 a1p)
  let h1p := if h1p0 < 0 then h1p0 + 360 else h1p0
  let h2p0 := degreesOf (atan2 b2 a2p)
  let h2p := if h2p0 < 0 then h2p0 + 360 else h2p0
  let avg_Hp := ((if 180 < |h1p - h2p| then (360 : ℝ) else 0) + h1p + h2p) / 2
  let T := 1 - 0.17 * Real.cos (radiansOf (avg_Hp - 30))
             + 0.24 * Real.cos (radiansOf (2 * avg_Hp))
             + 0.32 * Real.cos (radiansOf (3 * avg_Hp + 6))
             - 0.2 * Real.cos (radiansOf (4 * avg_Hp - 63))
  let diff := h2p - h1p
  let delta_hp :=
    if |diff| ≤ 180 then diff else if 180 < diff then diff - 360 else diff + 360
  let delta_Lp := L2 - L1
  let delta_Cp := C2p - C1p
  let delta_Hp := 2 * Real.sqrt (C2p * C1p) * Real.sin (radiansOf delta_hp / 2)
  let S_L := 1 + (0.015 * (avg_Lp - 50) ^ 2) / Real.sqrt (20 + (avg_Lp - 50) ^ 2)
  let S_C := 1 + 0.045 * avg_C1p_C2p
  let S_H := 1 + 0.015 * avg_C1p_C2p * T
  let delta_ro := 30 * Real.exp (-(((avg_Hp - 275) / 25) ^ 2))
  let R_C := Real.sqrt (avg_C1p_C2p ^ 7 / (avg_C1p_C2p ^ 7 + 25 ^ 7))
  let R_T := -2 * R_C * Real.sin (2 * radiansOf delta_ro)
  Real.sqrt ((delta_Lp / S_L) ^ 2 + (delta_Cp / S_C) ^ 2 + (delta_Hp / S_H) ^ 2
      + R_T * (delta_Cp / S_C) * (delta_Hp / S_H))

/-- Embedding of `is_same_wire_color` (wire_color.py, lines 55-72): rescale the
OpenCV LAB channels into the metric LAB space (L·100/255, a−128, b−128),
compute CIEDE2000 and compare with the threshold.  When any channel of either
color is NaN (`none`) the computed delta E is NaN and the Python comparison
`delta_e_2000 <= delta_e_threshold` is False, which the `none` branch encodes. -/
noncomputable def is_same_wire_color (w1 w2 : WireLab) (delta_e_threshold : ℝ) : Bool :=
  match w1, w2 with
  | (some l1, some a1, some b1), (some l2, some a2, some b2) =>
      decide (delta_e_cie2000 (l1 * 100 / 255) (a1 - 128) (b1 - 128)
        (l2 * 100 / 255) (a2 - 128) (b2 - 128) ≤ delta_e_threshold)
  | _, _ => false

/-- Default wire color used only to totalize list indexing; the guarded loop
below never reads it. -/
def dfltWireLab : WireLab := (none, none, none)

/-- Embedding of `is_same_color_sequence` (wire_color.py, lines 75-98): return
False on a length mismatch, otherwise check every position of the two
sequences with `is_same_wire_color`. -/
noncomputable def is_same_color_sequence (ref_wire_housing_colors : List WireLab)
    (target_wire_housing_colors : List WireLab) (acceptable_delta_e_threshold : ℝ) : Bool :=
  if ref_wire_housing_colors.length ≠ target_wire_housing_colors.length then false
  else (List.range ref_wire_housing_colors.length).all fun i =>
    is_same_wire_color (ref_wire_housing_colors.getD i dfltWireLab)
      (target_wire_housing_colors.getD i dfltWireLab) acceptable_delta_e_threshold

/-- CIEDE2000 of a color with itself is zero: every difference term of the
formula vanishes, so the final square root is of zero. -/
theorem delta_e_cie2000_self (L a b : ℝ) : delta_e_cie2000 L a b L a b = 0 := by
  simp only [delta_e_cie2000, sub_self]
  norm_num [radiansOf]

/-! ### Wire colorimeter (src/src/tasks/wire_color.py, lines 10-52)

The wire crop is modelled after `cv2.cvtColor(wire_img, cv2.COLOR_BGR2LAB)`:
a rectangular grid (list of rows) of LAB pixel triples.  Channel values are
exact rationals.  `WHITE_LAB_COLOR` (wire_color.py, line 10) is the OpenCV
8-bit LAB encoding of pure white BGR (255,255,255), which is (255,128,128). -/

/-- One pixel of the LAB-converted wire image. -/
abbrev LabPix : Type := ℚ × ℚ × ℚ

/-- A LAB image as a list of rows of pixels. -/
abbrev LabImg : Type := List (List LabPix)

/-- LAB representation of pure white, `WHITE_LAB_COLOR` (wire_color.py, line 10):
`cv2.cvtColor` of the all-255 BGR pixel, which is L=255, a=128, b=128. -/
def WHITE_LAB_COLOR : LabPix := (255, 128, 128)

/-- Embedding of numpy broadcast masking on one channel value
(`wire_lab[wire_lab == WHITE_LAB_COLOR] = np.nan`, wire_color.py, line 28):
a channel value equal to the corresponding channel of `WHITE_LAB_COLOR`
becomes NaN (`none`), independently of the pixel's other channels. -/
def maskChannel (v w : ℚ) : Option ℚ := if v = w then none else some v

/-- Embedding of `np.nanmean` on a 1-D float array: the mean of the non-NaN
entries, or NaN (`none`) when every entry is NaN. -/
def nanmean (xs : List (Option ℚ)) : Option ℚ :=
  let vals := xs.filterMap id
  if vals.length = 0 then none else some (vals.sum / vals.length)

/-- Ascending insertion into a sorted list of rationals. -/
def insertSorted (x : ℚ) : List ℚ → List ℚ
  | [] => [x]
  | y :: ys => if x ≤ y then x :: y :: ys else y :: insertSorted x ys

/-- Ascending insertion sort of a list of rationals (the sort `np.median`
performs before picking the middle entries). -/
def sortRat : List ℚ → List ℚ
  | [] => []
  | x :: xs => insertSorted x (sortRat xs)

/-- Median of a nonempty list of rationals, as `np.median` computes it:
sort, then take the middle element (odd length) or the mean of the two middle
elements (even length). -/
def medianOfList (xs : List ℚ) : ℚ :=
  let s := sortRat xs
  if xs.length % 2 = 1 then s.getD (xs.length / 2) 0
  else (s.getD (xs.length / 2 - 1) 0 + s.getD (xs.length / 2) 0) / 2

/-- Embedding of `np.nanmedian` on a 1-D float array: the median of the
non-NaN entries, or NaN (`none`) when every entry is NaN. -/
def nanmedian (xs : List (Option ℚ)) : Option ℚ :=
  let vals := xs.filterMap id
  if vals.length = 0 then none else some (medianOfList vals)

/-- Width (`wire_lab.shape[1]`) of a rectangular image given as rows. -/
def imgWidth (img : LabImg) : ℕ := (img.headD []).length

/-- Default pixel used only to totalize row indexing. -/
def dfltMaskedPix : Option ℚ × Option ℚ × Option ℚ := (none, none, none)

/-- Per-channel masking of one pixel, as the numpy broadcast
`wire_lab[wire_lab == WHITE_LAB_COLOR] = np.nan` (wire_color.py, line 28)
performs it: each channel is compared with the corresponding channel of
`WHITE_LAB_COLOR` independently. -/
def maskPixel (p : LabPix) : Option ℚ × Option ℚ × Option ℚ :=
  (maskChannel p.1 WHITE_LAB_COLOR.1, maskChannel p.2.1 WHITE_LAB_COLOR.2.1,
    maskChannel p.2.2 WHITE_LAB_COLOR.2.2)

/-- The LAB image after the NaN masking step. -/
def maskedImg (wire_lab : LabImg) : List (List (Option ℚ × Option ℚ × Option ℚ)) :=
  wire_lab.map (List.map maskPixel)

/-- The per-column (`bin`) nanmeans of one channel (selected by `proj`) of a
masked image: the lists `l_bin_vals`, `a_bin_vals`, `b_bin_vals` of
wire_color.py, lines 31-45. -/
def binVals (masked : List (List (Option ℚ × Option ℚ × Option ℚ))) (w : ℕ)
    (proj : Option ℚ × Option ℚ × Option ℚ → Option ℚ) : List (Option ℚ) :=
  (List.range w).map fun bin =>
    nanmean (masked.map fun row => proj (row.getD bin dfltMaskedPix))

/-- Embedding of `find_wire_lab_color` (wire_color.py, lines 15-52) applied to
the LAB-converted wire image: set each channel value equal to the
corresponding channel of `WHITE_LAB_COLOR` to NaN (numpy broadcast equality,
line 28), take per-column (`bin`) nanmeans of each channel, and return the
nanmedian of the bin means per channel. -/
def find_wire_lab_color (wire_lab : LabImg) : Option ℚ × Option ℚ × Option ℚ :=
  let masked := maskedImg wire_lab
  (nanmedian (binVals masked (imgWidth wire_lab) fun q => q.1),
   nanmedian (binVals masked (imgWidth wire_lab) fun q => q.2.1),
   nanmedian (binVals masked (imgWidth wire_lab) fun q => q.2.2))

/-- Per-pixel masking variant of the colorimeter, written from the words of
the claim being checked: a pixel is excluded from the bin means exactly when
its whole (L,a,b) value equals `WHITE_LAB_COLOR`; a pixel that differs from
white in at least one channel contributes all three channel values. -/
def find_wire_lab_color_pixelmask (wire_lab : LabImg) : Option ℚ × Option ℚ × Option ℚ :=
  let masked : List (List (Option ℚ × Option ℚ × Option ℚ)) :=
    wire_lab.map (List.map fun p =>
      if p = WHITE_LAB_COLOR then (none, none, none) else (some p.1, some p.2.1, some p.2.2))
  (nanmedian (binVals masked (imgWidth wire_lab) fun q => q.1),
   nanmedian (binVals masked (imgWidth wire_lab) fun q => q.2.1),
   nanmedian (binVals masked (imgWidth wire_lab) fun q => q.2.2))

/-- Mean of the channel values of one column that differ from the given white
reference channel value, `none` when no value differs: the claim-level
description of one bin's per-channel statistic under per-channel exclusion. -/
def specBinMean (vals : List ℚ) (w : ℚ) : Option ℚ :=
  let kept := vals.filter fun v => v ≠ w
  if kept.length = 0 then none else some (kept.sum / kept.length)

/-- Column `j` of an image given as rows (`wire_lab[:, j, :]`). -/
def imgColumn (img : LabImg) (j : ℕ) : List LabPix :=
  img.map fun row => row.getD j (0, 0, 0)

/-! ### Binary masks and contours (src/src/utils/contour_utils.py)

A binary mask is the finite set of its foreground pixel coordinates.
Foreground components are 8-connected, background regions 4-connected (the
standard digital-topology duality that OpenCV's contour tracing uses).
`cv2.findContours` with `RETR_EXTERNAL` retrieves one outer contour per
*top-level* 8-connected foreground component — a component some pixel of
which is 4-adjacent to the unbounded background region; components nested
inside holes of other components are not retrieved.  Filling a retrieved
outer contour (`cv2.drawContours(..., thickness=-1)`) paints the whole
region enclosed by that contour: the component together with its holes and
anything nested inside them.  `cv2.contourArea` is modelled as an arbitrary
function `areaFn` of the component (its value depends only on the traced
boundary, which is determined by the component's pixel set). -/

/-- A pixel coordinate. -/
abbrev Pix : Type := ℤ × ℤ

/-- A binary mask: the set of foreground pixels. -/
abbrev Mask : Type := Finset Pix

/-- 8-neighbourhood adjacency of two distinct pixels. -/
def adjacent (p q : Pix) : Prop :=
  p ≠ q ∧ |p.1 - q.1| ≤ 1 ∧ |p.2 - q.2| ≤ 1

instance (p q : Pix) : Decidable (adjacent p q) :=
  inferInstanceAs (Decidable (p ≠ q ∧ |p.1 - q.1| ≤ 1 ∧ |p.2 - q.2| ≤ 1))

/-- One step of connectivity inside the mask `m`. -/
def connStep (m : Mask) (p q : Pix) : Prop := p ∈ m ∧ q ∈ m ∧ adjacent p q

/-- Connectivity inside the mask: reflexive-transitive closure of `connStep`. -/
def Conn (m : Mask) : Pix → Pix → Prop := Relation.ReflTransGen (connStep m)

/-- The 8-connected component of `p` in the mask `m`. -/
noncomputable def component (m : Mask) (p : Pix) : Mask :=
  m.filter fun q => Conn m p q

/-- The list of all 8-connected foreground components of the mask, one entry
per component (in the traversal order of the mask's pixel list,
deduplicated).  `cv2.findContours(m, RETR_EXTERNAL, ...)` retrieves only the
top-level ones; see `findContours_ext`. -/
noncomputable def componentsList (m : Mask) : List Mask :=
  (m.toList.map (component m)).dedup

theorem connStep_symm {m : Mask} : Symmetric (connStep m) := by
  rintro p q ⟨hp, hq, hne, hx, hy⟩
  exact ⟨hq, hp, Ne.symm hne, by rwa [abs_sub_comm], by rwa [abs_sub_comm]⟩

theorem conn_symm {m : Mask} {p q : Pix} (h : Conn m p q) : Conn m q p :=
  Relation.ReflTransGen.symmetric connStep_symm h

theorem mem_component {m : Mask} {p q : Pix} :
    q ∈ component m p ↔ q ∈ m ∧ Conn m p q := by
  simp [component, Finset.mem_filter, and_comm]

theorem mem_component_self {m : Mask} {p : Pix} (h : p ∈ m) : p ∈ component m p :=
  mem_component.mpr ⟨h, Relation.ReflTransGen.refl⟩

theorem component_eq_of_conn {m : Mask} {p q : Pix} (h : Conn m p q) :
    component m p = component m q := by
  ext x
  simp only [mem_component]
  exact ⟨fun ⟨hx, hpx⟩ => ⟨hx, Relation.ReflTransGen.trans (conn_symm h) hpx⟩,
    fun ⟨hx, hqx⟩ => ⟨hx, Relation.ReflTransGen.trans h hqx⟩⟩

theorem mem_componentsList {m : Mask} {c : Mask} :
    c ∈ componentsList m ↔ ∃ p ∈ m, c = component m p := by
  simp only [componentsList, List.mem_dedup, List.mem_map, Finset.mem_toList]
  constructor
  · rintro ⟨p, hp, rfl⟩; exact ⟨p, hp, rfl⟩
  · rintro ⟨p, hp, rfl⟩; exact ⟨p, hp, rfl⟩

/-- The four edge-neighbours of a pixel (background connectivity is
4-connected in OpenCV's contour topology). -/
def neighbors4 (p : Pix) : List Pix :=
  [(p.1 + 1, p.2), (p.1 - 1, p.2), (p.1, p.2 + 1), (p.1, p.2 - 1)]

/-- 4-adjacency of two pixels. -/
def adj4 (p q : Pix) : Prop := q ∈ neighbors4 p

instance (p q : Pix) : Decidable (adj4 p q) :=
  inferInstanceAs (Decidable (q ∈ neighbors4 p))

/-- One 4-connected step between two pixels, both avoiding the set `c`. -/
def avoidStep (c : Mask) (p q : Pix) : Prop := p ∉ c ∧ q ∉ c ∧ adj4 p q

/-- The 4-connected region of `p` in the complement of `c`. -/
def avoidReach (c : Mask) (p : Pix) : Set Pix :=
  {q | Relation.ReflTransGen (avoidStep c) p q}

/-- Membership in the filled outer region of a component's external contour:
`cv2.drawContours` with thickness −1 paints the component together with
every pixel that cannot escape to infinity through the 4-connected
complement of the component (its holes, and anything nested inside them).
A pixel of `c` itself has the one-point (finite) avoid-region, so it is
always in the fill. -/
def FillPix (c : Mask) (p : Pix) : Prop := (avoidReach c p).Finite

/-- A component is retrieved by `cv2.findContours(..., RETR_EXTERNAL, ...)`
iff it is top-level: some pixel of it is 4-adjacent to a background pixel
whose 4-connected background region is infinite (reaches arbitrarily far,
i.e. the image border).  A component nested inside a hole of another
component only touches finite background regions and is not retrieved. -/
def TopLevel (m : Mask) (c : Mask) : Prop :=
  ∃ p ∈ c, ∃ b, b ∉ m ∧ adj4 p b ∧ (avoidReach m b).Infinite

/-- The contour list `cv2.findContours(m, RETR_EXTERNAL, ...)` returns: the
top-level 8-connected foreground components. -/
noncomputable def findContours_ext (m : Mask) : List Mask :=
  (componentsList m).filter fun c => decide (TopLevel m c)

/-- Embedding of `filter_out_small_contours` (contour_utils.py, lines 8-29):
retrieve the external contours, collect those whose `cv2.contourArea` is
strictly below `min_contour_area`, and fill them with black — removing every
pixel inside the filled outer regions of the collected contours. -/
noncomputable def filter_out_small_contours (thresh_img : Mask) (min_contour_area : ℚ)
    (areaFn : Mask → ℚ) : Mask :=
  let contours := findContours_ext thresh_img
  let contours_to_fill := contours.filter fun contour => decide (areaFn contour < min_contour_area)
  thresh_img.filter fun p => ¬ ∃ contour ∈ contours_to_fill, FillPix contour p

/-- Python's `max(l, key=f)`: `none` on an empty list (where CPython raises
`ValueError: max() arg is an empty sequence`), otherwise the first element
attaining the maximal key. -/
def pythonMax (l : List Mask) (f : Mask → ℚ) : Option Mask :=
  match l with
  | [] => none
  | x :: xs => some (xs.foldl (fun acc y => if f acc < f y then y else acc) x)

/-- Embedding of `filter_for_largest_contour` (contour_utils.py, lines 32-54):
retrieve the external contours, take the contour of maximal `cv2.contourArea`
with Python's `max` — which raises `ValueError` on an empty contour list —
and paint its filled outer region white on a black image when its area
reaches `min_contour_area`, else return the black image. -/
noncomputable def filter_for_largest_contour (thresh_img : Mask) (min_contour_area : ℚ)
    (areaFn : Mask → ℚ) : Except String (Set Pix) :=
  match pythonMax (findContours_ext thresh_img) areaFn with
  | none => Except.error "ValueError: max() arg is an empty sequence"
  | some max_contour =>
      Except.ok (if min_contour_area ≤ areaFn max_contour
        then {p : Pix | FillPix max_contour p} else ∅)

/-! ### Orientation solver (src/src/utils/rect_utils.py)

`cv2.minAreaRect` results are modelled as a center, a raw (width, height)
pair and a raw angle in degrees (clockwise from the horizontal to the first
edge, in [0, 90]).  `cv2.boxPoints` is embedded with OpenCV's
`RotatedRect::points` formula, and `box.astype(np.int32)` with C
truncation-toward-zero. -/

/-- An oriented rectangle as returned by `cv2.minAreaRect`:
center, raw (width, height), raw angle in degrees. -/
structure MinAreaRect where
  center : ℝ × ℝ
  size : ℝ × ℝ
  angle : ℝ

/-- C float-to-int conversion (`astype(np.int32)`): truncation toward zero. -/
noncomputable def truncI (x : ℝ) : ℤ := if 0 ≤ x then ⌊x⌋ else ⌈x⌉

/-- Embedding of `cv2.boxPoints`: the four corners of the oriented rectangle,
by OpenCV's `RotatedRect::points` formula. -/
noncomputable def boxPoints (r : MinAreaRect) : List (ℝ × ℝ) :=
  let th := r.angle * Real.pi / 180
  let b := Real.cos th * 0.5
  let a := Real.sin th * 0.5
  let p0 : ℝ × ℝ := (r.center.1 - a * r.size.2 - b * r.size.1,
                     r.center.2 + b * r.size.2 - a * r.size.1)
  let p1 : ℝ × ℝ := (r.center.1 + a * r.size.2 - b * r.size.1,
                     r.center.2 - b * r.size.2 - a * r.size.1)
  let p2 : ℝ × ℝ := (2 * r.center.1 - p0.1, 2 * r.center.2 - p0.2)
  let p3 : ℝ × ℝ := (2 * r.center.1 - p1.1, 2 * r.center.2 - p1.2)
  [p0, p1, p2, p3]

/-- The integer corner box `cv2.boxPoints(rect).astype(np.int32)`. -/
noncomputable def intBox (r : MinAreaRect) : List (ℤ × ℤ) :=
  (boxPoints r).map fun p => (truncI p.1, truncI p.2)

/-- Stable insertion for descending-by-y sort (ties keep original order, as
Python's stable `sorted(..., reverse=True)` does). -/
def insertByYDesc (p : ℤ × ℤ) : List (ℤ × ℤ) → List (ℤ × ℤ)
  | [] => [p]
  | q :: qs => if q.2 ≤ p.2 then p :: q :: qs else q :: insertByYDesc p qs

/-- Embedding of `sorted(box, key=lambda corner: corner[1], reverse=True)`:
stable sort of the corners by y coordinate, bottom-most first. -/
def sortByYDesc : List (ℤ × ℤ) → List (ℤ × ℤ)
  | [] => []
  | x :: xs => insertByYDesc x (sortByYDesc xs)

/-- The two bottom-most corners of the integer box of the rectangle
(rect_utils.py, lines 37-42): first and second entries of the corners sorted
by y descending. -/
noncomputable def lowestTwoCorners (r : MinAreaRect) : (ℤ × ℤ) × (ℤ × ℤ) :=
  let corners_sorted_by_y := sortByYDesc (intBox r)
  (corners_sorted_by_y.getD 0 (0, 0), corners_sorted_by_y.getD 1 (0, 0))

/-- Whether the bottom-most corner lies left of the second bottom-most corner
(rect_utils.py, line 45). -/
noncomputable def isMostBtmCornerOnLeft (r : MinAreaRect) : Bool :=
  decide ((lowestTwoCorners r).1.1 < (lowestTwoCorners r).2.1)

/-- `np.linalg.norm` of the integer difference of the two bottom-most corners
(rect_utils.py, line 48): the Euclidean distance between them. -/
noncomputable def mostBtmCornersDistance (r : MinAreaRect) : ℝ :=
  let lowest := (lowestTwoCorners r).1
  let second := (lowestTwoCorners r).2
  Real.sqrt ((((lowest.1 - second.1 : ℤ) : ℝ)) ^ 2 + (((lowest.2 - second.2 : ℤ) : ℝ)) ^ 2)

/-- Embedding of `get_straigten_rotation_angle` (rect_utils.py, lines 9-69):
return 0 for a raw angle of exactly 0 or 90; otherwise classify the
rectangle as tilted left or tilted right from the two bottom-most integer
corners of `cv2.boxPoints`, their Euclidean distance and the raw dimensions,
and return angle − 90 when tilted left, the raw angle otherwise. -/
noncomputable def get_straigten_rotation_angle (min_area_rect : MinAreaRect)
    (is_height_longer_than_width : Bool) : ℝ :=
  let angle := min_area_rect.angle
  if angle = 0 ∨ angle = 90 then 0
  else
    let is_most_btm_corner_on_left := isMostBtmCornerOnLeft min_area_rect
    let most_btm_corners_distance := mostBtmCornersDistance min_area_rect
    let is_tilted_left :=
      if is_height_longer_than_width then
        if is_most_btm_corner_on_left then
          decide (most_btm_corners_distance < min_area_rect.size.1)
        else
          decide (min_area_rect.size.2 < most_btm_corners_distance)
      else
        if is_most_btm_corner_on_left then
          decide (min_area_rect.size.1 < most_btm_corners_distance)
        else
          decide (most_btm_corners_distance < min_area_rect.size.2)
    if is_tilted_left then angle - 90 else angle

/-- Embedding of `get_obj_actual_width_and_height` (rect_utils.py, lines 72-91):
reorder the raw (width, height) by the real-world convention flag. -/
noncomputable def get_obj_actual_width_and_height (min_area_rect : MinAreaRect)
    (is_height_longer_than_width : Bool) : ℝ × ℝ :=
  let size := min_area_rect.size
  if is_height_longer_than_width then (min size.1 size.2, max size.1 size.2)
  else (max size.1 size.2, min size.1 size.2)

/-- Four-case tilt table written from the words of the claim being checked:
over {lowest corner on the left, on the right} × {convention flag true,
false}, compare the Euclidean distance between the two lowest corners
against the corresponding raw dimension of the rectangle. -/
noncomputable def spec_is_tilted_left (r : MinAreaRect) (is_height_longer_than_width : Bool) : Bool :=
  let onLeft := isMostBtmCornerOnLeft r
  let dist := mostBtmCornersDistance r
  match is_height_longer_than_width, onLeft with
  | true, true => decide (dist < r.size.1)
  | true, false => decide (r.size.2 < dist)
  | false, true => decide (r.size.1 < dist)
  | false, false => decide (dist < r.size.2)

/-! ### Wire ROI extractor (src/src/tasks/wire_roi.py)

The frame and grayscale image types are abstract; the external image
primitives the extractor composes are fields of the `IPT` interface, so the
theorems below hold for every interpretation of those primitives. -/

/-- Configuration of the wire region of interest (wire_roi.py, lines 16-20),
with the source's default height 28 and bottom-offset 15. -/
structure WireRoiConfig where
  roi_width : ℤ
  roi_height : ℤ := 28
  roi_center_distance_from_connector_btm : ℤ := 15

/-- Minimum contour area accepted inside the wire ROI
(`ACCEPTABLE_AREA_IN_WIRE_ROI`, wire_roi.py, line 13). -/
def ACCEPTABLE_AREA_IN_WIRE_ROI : ℚ := 125

/-- The external image-processing primitives used by the ROI extractor:
`cv2.minAreaRect`, `frame_utils.rotate_image` (a `cv2.warpAffine` wrapper),
`cv2.getRectSubPix`, `cv2.cvtColor(..., COLOR_BGR2GRAY)`,
`cv2.threshold(..., THRESH_BINARY_INV)`, `cv2.contourArea`, and the
mask-drawing and overlay steps of `get_display_image`. -/
structure IPT (Frame Gray : Type) where
  minAreaRect : List Pix → MinAreaRect
  rotate_image : Frame → ℝ × ℝ → ℝ → Frame
  getRectSubPix : Frame → ℤ × ℤ → ℝ × ℤ → Frame
  cvtColorBgr2Gray : Frame → Gray
  thresholdBinaryInv : Gray → ℚ → ℚ → Mask
  contourArea : Mask → ℚ
  rotateMask : Mask → ℝ × ℝ → ℝ → Mask
  drawBoxOutline : Mask → List (ℤ × ℤ) → Mask
  overlayMaskRed : Frame → Mask → Frame

/-- Embedding of `get_roi_center` (wire_roi.py, lines 23-41): the x coordinate
of the connector center (kept as a float) paired with the integer y of the
connector bottom plus the configured offset. -/
noncomputable def get_roi_center (connector_rect : MinAreaRect) (connector_height : ℝ)
    (roi_center_distance_from_connector_btm : ℤ) : ℝ × ℤ :=
  let bottom_of_connector_y := truncI (connector_rect.center.2 + connector_height / 2)
  (connector_rect.center.1, bottom_of_connector_y + roi_center_distance_from_connector_btm)

/-- Embedding of `get_wire_roi` (wire_roi.py, lines 44-64): rotate the
white-background frame about the connector center by the rotation angle, then
take the sub-pixel crop of the configured size at the ROI center. -/
def get_wire_roi {Frame Gray : Type} (ipt : IPT Frame Gray) (frame_white_bg : Frame)
    (connector_rect : MinAreaRect) (rotation_angle : ℝ) (wire_roi_config : WireRoiConfig)
    (wire_roi_center : ℝ × ℤ) : Frame :=
  let rotated_frame := ipt.rotate_image frame_white_bg connector_rect.center rotation_angle
  ipt.getRectSubPix rotated_frame (wire_roi_config.roi_width, wire_roi_config.roi_height)
    wire_roi_center

/-- Modelled from the spec: `contour_utils.has_contour_of_size` is called by
`is_valid_wire_roi` (wire_roi.py, line 73) but is not present in
src/src/utils/contour_utils.py.  Spec §4.4 step 4 describes it: "test whether
any foreground contour exceeds a small minimum area".  Contours are what
`cv2.findContours(..., RETR_EXTERNAL, ...)` retrieves (`findContours_ext`)
and their area is `cv2.contourArea` (the `areaFn` argument). -/
noncomputable def has_contour_of_size (thresh_img : Mask) (min_area : ℚ)
    (areaFn : Mask → ℚ) : Bool :=
  decide (∃ c ∈ findContours_ext thresh_img, min_area < areaFn c)

/-- Embedding of `is_valid_wire_roi` (wire_roi.py, lines 67-73): convert the
crop to grayscale, threshold it inverted at the near-255 cutoff 254, and test
for a contour larger than `ACCEPTABLE_AREA_IN_WIRE_ROI`. -/
noncomputable def is_valid_wire_roi {Frame Gray : Type} (ipt : IPT Frame Gray)
    (wire_roi : Frame) : Bool :=
  let wire_roi_gray := ipt.cvtColorBgr2Gray wire_roi
  let wire_roi_thresh := ipt.thresholdBinaryInv wire_roi_gray 254 255
  has_contour_of_size wire_roi_thresh ACCEPTABLE_AREA_IN_WIRE_ROI ipt.contourArea

/-- Embedding of `get_display_image` (wire_roi.py, lines 76-120): draw the
connector box and the (rotated) ROI box on a mask and paint the original
frame red where the mask is set. -/
noncomputable def get_display_image {Frame Gray : Type} (ipt : IPT Frame Gray)
    (original_frame : Frame) (connector_rect : MinAreaRect) (wire_roi_config : WireRoiConfig)
    (wire_roi_center : ℝ × ℤ) (rotation_angle : ℝ) : Frame :=
  let mask0 : Mask := ∅
  let mask1 := ipt.drawBoxOutline mask0 (intBox connector_rect)
  let mask2 := ipt.rotateMask mask1 connector_rect.center rotation_angle
  let wire_roi_rect : MinAreaRect :=
    ⟨(wire_roi_center.1, (wire_roi_center.2 : ℝ)),
      ((wire_roi_config.roi_width : ℝ), (wire_roi_config.roi_height : ℝ)), 0⟩
  let mask3 := ipt.drawBoxOutline mask2 (intBox wire_roi_rect)
  let mask4 := ipt.rotateMask mask3 connector_rect.center (-rotation_angle)
  ipt.overlayMaskRed original_frame mask4

/-- Embedding of `find_wire_roi` (wire_roi.py, lines 123-171): compute the
connector rectangle, the ROI configuration and center and the straightening
angle; crop the ROI; if the validity check fails, flip the angle to the other
90° branch and crop once more; build the display image with the final angle. -/
noncomputable def find_wire_roi {Frame Gray : Type} (ipt : IPT Frame Gray)
    (ori_frame frame_white_bg : Frame) (connector_contour : List Pix)
    (is_height_greater_than_width : Bool) : Frame × Frame :=
  let connector_rect := ipt.minAreaRect connector_contour
  let wh := get_obj_actual_width_and_height connector_rect is_height_greater_than_width
  let wire_roi_config : WireRoiConfig := ⟨truncI wh.1, 28, 15⟩
  let wire_roi_center := get_roi_center connector_rect wh.2
    wire_roi_config.roi_center_distance_from_connector_btm
  let rotation_angle := get_straigten_rotation_angle connector_rect is_height_greater_than_width
  let wire_roi := get_wire_roi ipt frame_white_bg connector_rect rotation_angle
    wire_roi_config wire_roi_center
  let final : ℝ × Frame :=
    if is_valid_wire_roi ipt wire_roi then (rotation_angle, wire_roi)
    else
      let flipped := if 0 < rotation_angle then rotation_angle - 90 else rotation_angle + 90
      (flipped, get_wire_roi ipt frame_white_bg connector_rect flipped
        wire_roi_config wire_roi_center)
  let display_img := get_display_image ipt ori_frame connector_rect wire_roi_config
    wire_roi_center final.1
  (final.2, display_img)

/-! ### Claim theorems -/

/-- C9: for every oriented rectangle whose raw angle equals exactly 0° or
exactly 90°, the straightening angle returned by
`get_straigten_rotation_angle` is 0, regardless of the convention flag and
the rectangle's dimensions. -/
theorem straighten_angle_zero_at_axis (r : MinAreaRect) (flag : Bool)
    (h : r.angle = 0 ∨ r.angle = 90) : get_straigten_rotation_angle r flag = 0 := by
  unfold get_straigten_rotation_angle
  rw [if_pos h]

/-- Witness for C9 at a concrete axis-aligned rectangle. -/
theorem straighten_angle_zero_at_axis_witness :
    get_straigten_rotation_angle ⟨(0, 0), (4, 2), 0⟩ true = 0 :=
  straighten_angle_zero_at_axis ⟨(0, 0), (4, 2), 0⟩ true (Or.inl rfl)

/-- C3: for every oriented rectangle whose raw angle is strictly between 0°
and 90°, `get_straigten_rotation_angle` classifies the rectangle by the
four-case table over {lowest corner on the left, on the right} × {convention
flag true, false}, each case comparing the Euclidean distance between the two
lowest corners against the corresponding raw dimension, and returns
(raw angle − 90°) when tilted left and the raw angle unchanged when tilted
right. -/
theorem straighten_angle_tilt_table (r : MinAreaRect) (flag : Bool)
    (h0 : 0 < r.angle) (h90 : r.angle < 90) :
    get_straigten_rotation_angle r flag =
      if spec_is_tilted_left r flag then r.angle - 90 else r.angle := by
  unfold get_straigten_rotation_angle spec_is_tilted_left
  rw [if_neg (by rintro (h | h) <;> rw [h] at h0 h90 <;> linarith)]
  cases flag <;> cases hob : isMostBtmCornerOnLeft r <;> simp [hob]

/-- Witness for C3 at a concrete rectangle with raw angle 30°. -/
theorem straighten_angle_tilt_table_witness :
    get_straigten_rotation_angle ⟨(0, 0), (4, 2), 30⟩ true =
      if spec_is_tilted_left ⟨(0, 0), (4, 2), 30⟩ true then (30 : ℝ) - 90 else 30 :=
  straighten_angle_tilt_table ⟨(0, 0), (4, 2), 30⟩ true (by norm_num) (by norm_num)

/-- C10: for every threshold value, the sequence matcher applied to two
empty color sequences returns True. -/
theorem empty_sequences_match (t : ℝ) : is_same_color_sequence [] [] t = true := by
  simp [is_same_color_sequence]

/-- C2 (failing input): on an all-background mask there are no foreground
contours, and `filter_for_largest_contour` hits Python's
`max(contours, key=cv2.contourArea)` with an empty sequence, which raises
`ValueError` instead of returning the all-black mask the spec requires.
Evaluated here at the empty mask and the minimum area 10000 used by
`remove_wires_from_treshold` (connector.py, line 30). -/
theorem largest_contour_filter_crashes_on_empty_mask :
    filter_for_largest_contour ∅ 10000 (fun c => (c.card : ℚ)) =
      Except.error "ValueError: max() arg is an empty sequence" := by
  simp [filter_for_largest_contour, findContours_ext, componentsList, pythonMax,
    Finset.toList_empty]

/-- A pixel of a component lies in its filled outer region: no avoid-step can
leave the component's own pixel, so its avoid-region is the singleton. -/
theorem fillPix_of_mem {c : Mask} {p : Pix} (hp : p ∈ c) : FillPix c p := by
  have hsub : avoidReach c p ⊆ {p} := by
    intro q hq
    rcases Relation.ReflTransGen.cases_head hq with h | ⟨r, hstep, -⟩
    · simp [h.symm]
    · exact absurd hp hstep.1
  exact Set.Finite.subset (Set.finite_singleton p) hsub

/-- If a finite pixel set `S` containing `b` is closed under 4-steps avoiding
the mask `c`, the whole avoid-region of `b` stays inside `S`. -/
theorem avoidReach_subset_of_closed {c : Mask} {S : Finset Pix} {b : Pix} (hb : b ∈ S)
    (hcl : ∀ x ∈ S, ∀ y ∈ neighbors4 x, y ∉ c → y ∈ S) :
    avoidReach c b ⊆ ↑S := by
  intro q hq
  induction hq with
  | refl => exact hb
  | tail hr hstep ih => exact hcl _ ih _ hstep.2.2 hstep.2.1

/-- A background pixel from which a whole horizontal ray avoids the mask has
an infinite background region. -/
theorem avoidReach_infinite_of_ray {c : Mask} {b : Pix}
    (h : ∀ k : ℕ, ((b.1 + (k : ℤ), b.2) : Pix) ∉ c) : (avoidReach c b).Infinite := by
  have hmem : ∀ k : ℕ, ((b.1 + (k : ℤ), b.2) : Pix) ∈ avoidReach c b := by
    intro k
    induction k with
    | zero =>
        have hb : ((b.1 + ((0 : ℕ) : ℤ), b.2) : Pix) = b := by simp
        rw [hb]
        exact Relation.ReflTransGen.refl
    | succ n ih =>
        refine Relation.ReflTransGen.tail ih ⟨h n, h (n + 1), ?_⟩
        have he : ((b.1 + ((n + 1 : ℕ) : ℤ), b.2) : Pix) = (b.1 + (n : ℤ) + 1, b.2) := by
          rw [Prod.ext_iff]
          constructor
          · push_cast
            ring
          · rfl
        rw [he]
        simp [adj4, neighbors4]
  refine Set.infinite_of_injective_forall_mem
    (f := fun k : ℕ => ((b.1 + (k : ℤ), b.2) : Pix)) ?_ hmem
  intro k1 k2 hk
  rw [Prod.ext_iff] at hk
  have := add_left_cancel hk.1
  exact_mod_cast this

/-- The 5×5 ring together with a one-pixel dot at its center: the ring is the
border of {0..4}², the dot (2,2) is a separate 8-connected component lying
inside the ring's hole, so `RETR_EXTERNAL` does not retrieve it. -/
def ringDotMask : Mask :=
  {(0, 0), (1, 0), (2, 0), (3, 0), (4, 0),
   (0, 1), (4, 1), (0, 2), (4, 2), (0, 3), (4, 3),
   (0, 4), (1, 4), (2, 4), (3, 4), (4, 4),
   (2, 2)}

/-- The ring's hole minus the dot: the finite background region surrounding
the nested dot. -/
def ringHole : Finset Pix :=
  {(1, 1), (2, 1), (3, 1), (1, 2), (3, 2), (1, 3), (2, 3), (3, 3)}

/-- The dot is its own component: no pixel of `ringDotMask` is 8-adjacent to
the center (2,2). -/
theorem ringDot_component_center :
    component ringDotMask (2, 2) = {((2 : ℤ), (2 : ℤ))} := by
  have hnostep : ∀ r ∈ ringDotMask, ¬ adjacent (2, 2) r := by decide
  ext q
  simp only [mem_component, Finset.mem_singleton]
  constructor
  · rintro ⟨hqm, hconn⟩
    rcases Relation.ReflTransGen.cases_head hconn with h | ⟨r, hstep, -⟩
    · exact h.symm
    · exact absurd hstep.2.2 (hnostep r hstep.2.1)
  · rintro rfl
    exact ⟨by decide, Relation.ReflTransGen.refl⟩

/-- The dot component is not top-level: all four 4-neighbours of the center
lie in the hole, and the hole is 4-closed in the complement of the mask, so
every background region the dot touches is finite. -/
theorem ringDot_center_not_topLevel :
    ¬ TopLevel ringDotMask {((2 : ℤ), (2 : ℤ))} := by
  rintro ⟨p, hp, b, hbm, hadj, hinf⟩
  rw [Finset.mem_singleton] at hp
  subst hp
  have hbH : b ∈ ringHole := by
    have hall : ∀ y ∈ neighbors4 ((2 : ℤ), (2 : ℤ)), y ∈ ringHole := by decide
    exact hall b hadj
  have hclosed : ∀ x ∈ ringHole, ∀ y ∈ neighbors4 x, y ∉ ringDotMask → y ∈ ringHole := by
    decide
  exact hinf (Set.Finite.subset ringHole.finite_toSet
    (avoidReach_subset_of_closed hbH hclosed))

/-- C7 (counterexample): on the ring-with-nested-dot mask with threshold 2,
`RETR_EXTERNAL` retrieval skips the one-pixel component at (2,2) nested in
the ring's hole, so nothing reaches the fill list and the small component
survives — falsifying the claim that exactly the components of area < 2 are
filled, at this explicit mask and the pixel-count area measure. -/
theorem area_filter_not_exact_on_nested :
    ¬ ∀ p : Pix,
        p ∈ filter_out_small_contours ringDotMask 2 (fun c => (c.card : ℚ)) ↔
          p ∈ ringDotMask ∧ ¬ ((component ringDotMask p).card : ℚ) < 2 := by
  intro hclaim
  have hdotmem : ((2 : ℤ), (2 : ℤ)) ∈
      filter_out_small_contours ringDotMask 2 (fun c => (c.card : ℚ)) := by
    simp only [filter_out_small_contours]
    rw [Finset.mem_filter]
    refine ⟨by decide, ?_⟩
    rintro ⟨c, hc, -⟩
    simp only [findContours_ext, List.mem_filter, decide_eq_true_eq] at hc
    obtain ⟨⟨hccomp, hctop⟩, hcsmall⟩ := hc
    have hcard : c.card ≤ 1 := by
      have : c.card < 2 := by exact_mod_cast hcsmall
      omega
    obtain ⟨q, hq, rfl⟩ := mem_componentsList.mp hccomp
    by_cases hq2 : q = ((2 : ℤ), (2 : ℤ))
    · subst hq2
      rw [ringDot_component_center] at hctop
      exact ringDot_center_not_topLevel hctop
    · have hall : ∀ x ∈ ringDotMask, x = ((2 : ℤ), (2 : ℤ)) ∨
          ∃ r ∈ ringDotMask, r ≠ x ∧ adjacent x r := by decide
      rcases hall q hq with h | ⟨r, hr, hrq, hadj⟩
      · exact hq2 h
      · have hqmem : q ∈ component ringDotMask q := mem_component_self hq
        have hrmem : r ∈ component ringDotMask q :=
          mem_component.mpr ⟨hr, Relation.ReflTransGen.single ⟨hq, hr, hadj⟩⟩
        have h2 : 1 < (component ringDotMask q).card :=
          Finset.one_lt_card.mpr ⟨q, hqmem, r, hrmem, Ne.symm hrq⟩
        omega
  have hsmall : ((component ringDotMask (2, 2)).card : ℚ) < 2 := by
    rw [ringDot_component_center]
    norm_num
  exact ((hclaim (2, 2)).mp hdotmem).2 hsmall

/-- C7 (amended): for every binary mask and area measure the area filter
never increases the total foreground area (pixel count); and on every mask
all of whose 8-connected components are retrieved by `RETR_EXTERNAL`
(each is top-level) and whose components' filled outer regions contain no
foreground pixels of other components, a pixel survives exactly when it is
foreground and its component's area is not strictly below the threshold —
components at exactly the threshold are kept. -/
theorem area_filter_exact_external (m : Mask) (t : ℚ) (areaFn : Mask → ℚ) :
    (filter_out_small_contours m t areaFn).card ≤ m.card ∧
      ((∀ c ∈ componentsList m, TopLevel m c) →
       (∀ c ∈ componentsList m, ∀ p ∈ m, FillPix c p → p ∈ c) →
       ∀ p : Pix, p ∈ filter_out_small_contours m t areaFn ↔
         p ∈ m ∧ ¬ areaFn (component m p) < t) := by
  constructor
  · exact Finset.card_le_card (Finset.filter_subset _ _)
  · intro hTop hFill p
    simp only [filter_out_small_contours]
    rw [Finset.mem_filter]
    constructor
    · rintro ⟨hpm, hnot⟩
      refine ⟨hpm, fun hsmall => hnot ?_⟩
      have hcl : component m p ∈ componentsList m := mem_componentsList.mpr ⟨p, hpm, rfl⟩
      refine ⟨component m p, ?_, fillPix_of_mem (mem_component_self hpm)⟩
      simp only [findContours_ext, List.mem_filter, decide_eq_true_eq]
      exact ⟨⟨hcl, hTop _ hcl⟩, hsmall⟩
    · rintro ⟨hpm, hbig⟩
      refine ⟨hpm, ?_⟩
      rintro ⟨c, hc, hfillp⟩
      simp only [findContours_ext, List.mem_filter, decide_eq_true_eq] at hc
      obtain ⟨⟨hcl, -⟩, hcsmall⟩ := hc
      have hpc : p ∈ c := hFill c hcl p hpm hfillp
      obtain ⟨q, hq, rfl⟩ := mem_componentsList.mp hcl
      have hconn : Conn m q p := (mem_component.mp hpc).2
      rw [component_eq_of_conn hconn] at hcsmall
      exact hbig hcsmall

/-- Witness for C7 (amended) at the one-pixel mask {(0,0)} and threshold 1:
the single component is top-level (it touches the unbounded background to
its right), fills spill nowhere, and the pixel is removed since its
component's area 1 is strictly below the threshold. -/
theorem area_filter_exact_external_witness :
    ((0 : ℤ), (0 : ℤ)) ∈
        filter_out_small_contours {((0 : ℤ), (0 : ℤ))} 1 (fun c => (c.card : ℚ)) ↔
      ((0 : ℤ), (0 : ℤ)) ∈ ({((0 : ℤ), (0 : ℤ))} : Mask) ∧
        ¬ ((component {((0 : ℤ), (0 : ℤ))} (0, 0)).card : ℚ) < 1 := by
  refine (area_filter_exact_external {((0 : ℤ), (0 : ℤ))} 1 (fun c => (c.card : ℚ))).2
    ?_ ?_ (0, 0)
  · intro c hc
    obtain ⟨q, hq, rfl⟩ := mem_componentsList.mp hc
    have hq0 : q = ((0 : ℤ), (0 : ℤ)) := by simpa using hq
    subst hq0
    refine ⟨(0, 0), mem_component_self (by simp), (1, 0), by decide,
      by decide, avoidReach_infinite_of_ray ?_⟩
    intro k
    simp only [Finset.mem_singleton, Prod.ext_iff, not_and]
    intro h1
    omega
  · intro c hc p hp hfill
    obtain ⟨q, hq, rfl⟩ := mem_componentsList.mp hc
    have hq0 : q = ((0 : ℤ), (0 : ℤ)) := by simpa using hq
    subst hq0
    have hp0 : p = ((0 : ℤ), (0 : ℤ)) := by simpa using hp
    subst hp0
    exact mem_component_self (by simp)

/-- C5: the sequence matcher returns True iff the two sequences have equal
length and every positional pair of colors passes `is_same_wire_color`; for
fully defined colors that check is exactly "the CIEDE2000 distance of the
rescaled colors (L·100/255, a−128, b−128) is ≤ the threshold".  A length
mismatch therefore yields False (the code returns before any comparison). -/
theorem sequence_match_iff (S T : List WireLab) (t : ℝ) :
    (is_same_color_sequence S T t = true ↔
      S.length = T.length ∧ ∀ (i : ℕ) (hS : i < S.length) (hT : i < T.length),
        is_same_wire_color (S.get ⟨i, hS⟩) (T.get ⟨i, hT⟩) t = true) ∧
    ∀ l1 a1 b1 l2 a2 b2 : ℝ,
      is_same_wire_color (some l1, some a1, some b1) (some l2, some a2, some b2) t = true ↔
        delta_e_cie2000 (l1 * 100 / 255) (a1 - 128) (b1 - 128)
          (l2 * 100 / 255) (a2 - 128) (b2 - 128) ≤ t := by
  constructor
  · unfold is_same_color_sequence
    by_cases h : S.length = T.length
    · rw [if_neg (by simp [h]), List.all_eq_true]
      constructor
      · intro hall
        refine ⟨h, fun i hS hT => ?_⟩
        have hmem := hall i (List.mem_range.mpr hS)
        have e1 : S.getD i dfltWireLab = S.get ⟨i, hS⟩ := by
          rw [List.getD_eq_getElem S dfltWireLab hS]; simp
        have e2 : T.getD i dfltWireLab = T.get ⟨i, hT⟩ := by
          rw [List.getD_eq_getElem T dfltWireLab hT]; simp
        rwa [e1, e2] at hmem
      · rintro ⟨-, hall⟩
        intro i hi
        have hS : i < S.length := List.mem_range.mp hi
        have hT : i < T.length := h ▸ hS
        have e1 : S.getD i dfltWireLab = S.get ⟨i, hS⟩ := by
          rw [List.getD_eq_getElem S dfltWireLab hS]; simp
        have e2 : T.getD i dfltWireLab = T.get ⟨i, hT⟩ := by
          rw [List.getD_eq_getElem T dfltWireLab hT]; simp
        rw [e1, e2]
        exact hall i hS hT
    · rw [if_pos (by simpa using h)]
      simp [h]
  · intro l1 a1 b1 l2 a2 b2
    simp [is_same_wire_color]

/-- Witness for C5: a length-1 sequence against a length-0 sequence is an
immediate non-match. -/
theorem sequence_match_iff_witness :
    is_same_color_sequence [((some 1 : Option ℝ), some 2, some 3)] [] 0 = false := by
  have h := (sequence_match_iff [((some 1 : Option ℝ), some 2, some 3)] [] 0).1
  cases hb : is_same_color_sequence [((some 1 : Option ℝ), some 2, some 3)] [] 0
  · rfl
  · obtain ⟨hlen, -⟩ := h.mp hb
    simp at hlen

/-- C8: for every sequence of fully defined colors and every nonnegative
threshold, the sequence matcher applied to the sequence against itself
returns True, because the CIEDE2000 distance of every color to itself is 0. -/
theorem sequence_match_self (S : List WireLab) (t : ℝ) (ht : 0 ≤ t)
    (hdef : ∀ c ∈ S, ∃ l a b : ℝ, c = (some l, some a, some b)) :
    is_same_color_sequence S S t = true := by
  unfold is_same_color_sequence
  rw [if_neg (by simp), List.all_eq_true]
  intro i hi
  have hS : i < S.length := List.mem_range.mp hi
  obtain ⟨l, a, b, hc⟩ := hdef (S.get ⟨i, hS⟩) (List.get_mem S i hS)
  have e1 : S.getD i dfltWireLab = S.get ⟨i, hS⟩ := by
    rw [List.getD_eq_getElem S dfltWireLab hS]; simp
  rw [e1, hc]
  simp [is_same_wire_color, delta_e_cie2000_self]
  exact ht

/-- Witness for C8 at a concrete one-color sequence and threshold 0. -/
theorem sequence_match_self_witness :
    is_same_color_sequence [((some 1 : Option ℝ), some 2, some 3)]
      [((some 1 : Option ℝ), some 2, some 3)] 0 = true :=
  sequence_match_self [((some 1 : Option ℝ), some 2, some 3)] 0 le_rfl
    (by rintro c hc; rw [List.mem_singleton] at hc; exact ⟨1, 2, 3, hc⟩)

/-! ### Colorimeter lemmas and claims C4 / C6 -/

theorem filterMap_id_eq_nil {xs : List (Option ℚ)} (h : ∀ x ∈ xs, x = none) :
    xs.filterMap id = [] := by
  induction xs with
  | nil => rfl
  | cons x xs ih =>
      have hx : x = none := h x (by simp)
      subst hx
      rw [List.filterMap_cons]
      exact ih fun y hy => h y (by simp [hy])

theorem nanmean_eq_none {xs : List (Option ℚ)} (h : ∀ x ∈ xs, x = none) :
    nanmean xs = none := by
  simp [nanmean, filterMap_id_eq_nil h]

theorem nanmedian_eq_none {xs : List (Option ℚ)} (h : ∀ x ∈ xs, x = none) :
    nanmedian xs = none := by
  simp [nanmedian, filterMap_id_eq_nil h]

theorem getD_of_all_eq {α : Type} {l : List α} {d : α} (h : ∀ x ∈ l, x = d) (n : ℕ) :
    l.getD n d = d := by
  induction l generalizing n with
  | nil => simp
  | cons x xs ih =>
      cases n with
      | zero => simpa using h x (by simp)
      | succ k =>
          rw [List.getD_cons_succ]
          exact ih (fun y hy => h y (by simp [hy])) k

theorem filterMap_id_cons_none (l : List (Option ℚ)) :
    (none :: l).filterMap id = l.filterMap id := List.filterMap_cons_none rfl

theorem filterMap_id_cons_some (x : ℚ) (l : List (Option ℚ)) :
    (some x :: l).filterMap id = x :: l.filterMap id := List.filterMap_cons_some rfl

theorem filterMap_maskChannel (w : ℚ) (vals : List ℚ) :
    vals.filterMap (fun v => maskChannel v w) = vals.filter fun v => v ≠ w := by
  induction vals with
  | nil => rfl
  | cons v vs ih =>
      by_cases hv : v = w
      · rw [List.filterMap_cons_none (by simp [maskChannel, hv]),
          List.filter_cons_of_neg (by simp [hv]), ih]
      · rw [@List.filterMap_cons_some ℚ ℚ (fun v => maskChannel v w) v vs v
            (by simp [maskChannel, hv]),
          List.filter_cons_of_pos (by simp [hv]), ih]

/-- Masking and then nanmean-ing a channel equals averaging the values that
differ from the white reference channel value. -/
theorem nanmean_mask_eq_specBinMean (vals : List ℚ) (w : ℚ) :
    nanmean (vals.map fun v => maskChannel v w) = specBinMean vals w := by
  simp only [nanmean, specBinMean]
  rw [List.filterMap_map]
  rw [show (id ∘ fun v => maskChannel v w) = fun v => maskChannel v w from rfl]
  rw [filterMap_maskChannel]

/-- One bin of one channel of the masked image, for a rectangular image and a
column inside its width, equals the claim-level per-channel bin statistic of
that column. -/
theorem binVal_eq_specBinMean (img : LabImg)
    (hrect : ∀ row ∈ img, row.length = imgWidth img) (j : ℕ) (hj : j < imgWidth img)
    (proj : Option ℚ × Option ℚ × Option ℚ → Option ℚ) (ch : LabPix → ℚ) (w : ℚ)
    (hproj : ∀ p : LabPix, proj (maskPixel p) = maskChannel (ch p) w) :
    nanmean ((maskedImg img).map fun row => proj (row.getD j dfltMaskedPix)) =
      specBinMean ((imgColumn img j).map ch) w := by
  have hlist : (maskedImg img).map (fun row => proj (row.getD j dfltMaskedPix)) =
      ((imgColumn img j).map ch).map fun v => maskChannel v w := by
    rw [maskedImg, List.map_map, imgColumn, List.map_map, List.map_map]
    refine List.map_congr_left fun row hrow => ?_
    have hlen : j < row.length := by rw [hrect row hrow]; exact hj
    have e1 : (row.map maskPixel).getD j dfltMaskedPix = maskPixel (row.getD j (0, 0, 0)) := by
      rw [List.getD_eq_getElem _ _ (by simpa using hlen), List.getD_eq_getElem _ _ hlen]
      simp
    simp only [Function.comp, e1, hproj]
  rw [hlist, nanmean_mask_eq_specBinMean]

/-- C4 (amended): for every rectangular wire crop, `find_wire_lab_color`
computes, per channel, the per-column mean of exactly those channel values
that differ from the corresponding channel of the white reference, and
returns the per-channel nanmedian over the bins with no-data bins ignored.
(The code's exclusion is per channel — the numpy broadcast equality — not
per whole pixel as the original claim stated.) -/
theorem colorimeter_channelwise (img : LabImg)
    (hrect : ∀ row ∈ img, row.length = imgWidth img) :
    find_wire_lab_color img =
      (nanmedian ((List.range (imgWidth img)).map fun j =>
          specBinMean ((imgColumn img j).map fun p => p.1) WHITE_LAB_COLOR.1),
       nanmedian ((List.range (imgWidth img)).map fun j =>
          specBinMean ((imgColumn img j).map fun p => p.2.1) WHITE_LAB_COLOR.2.1),
       nanmedian ((List.range (imgWidth img)).map fun j =>
          specBinMean ((imgColumn img j).map fun p => p.2.2) WHITE_LAB_COLOR.2.2)) := by
  unfold find_wire_lab_color binVals
  simp only [Prod.mk.injEq]
  refine ⟨?_, ?_, ?_⟩
  · exact congrArg nanmedian (List.map_congr_left fun j hj =>
      binVal_eq_specBinMean img hrect j (List.mem_range.mp hj)
        (fun q => q.1) (fun p => p.1) WHITE_LAB_COLOR.1 fun p => rfl)
  · exact congrArg nanmedian (List.map_congr_left fun j hj =>
      binVal_eq_specBinMean img hrect j (List.mem_range.mp hj)
        (fun q => q.2.1) (fun p => p.2.1) WHITE_LAB_COLOR.2.1 fun p => rfl)
  · exact congrArg nanmedian (List.map_congr_left fun j hj =>
      binVal_eq_specBinMean img hrect j (List.mem_range.mp hj)
        (fun q => q.2.2) (fun p => p.2.2) WHITE_LAB_COLOR.2.2 fun p => rfl)

/-- Witness for C4 (amended) at a concrete 1×2 crop: the 100-valued L channel
survives, the white-valued a and b channels are excluded. -/
theorem colorimeter_channelwise_witness :
    find_wire_lab_color [[(100, 128, 128), (255, 128, 128)]] = (some 100, none, none) := by
  rw [colorimeter_channelwise [[(100, 128, 128), (255, 128, 128)]] (by decide)]
  norm_num [imgWidth, imgColumn, specBinMean, nanmedian, medianOfList, sortRat, insertSorted,
    WHITE_LAB_COLOR, List.range_succ, List.filter_cons, filterMap_id_cons_none,
    filterMap_id_cons_some, List.getD]

/-- C4 (counterexample): on the single-pixel crop (L,a,b) = (100,128,128) —
a non-white pixel sharing its a and b channels with the white reference —
the code excludes the a and b values (per-channel broadcast masking) while
the claimed whole-pixel rule would keep all three channels, so the claimed
behavior differs from the code's. -/
theorem colorimeter_pixelmask_counterexample :
    find_wire_lab_color [[(100, 128, 128)]] = (some 100, none, none) ∧
    find_wire_lab_color_pixelmask [[(100, 128, 128)]] = (some 100, some 128, some 128) ∧
    find_wire_lab_color [[(100, 128, 128)]] ≠ find_wire_lab_color_pixelmask [[(100, 128, 128)]] := by
  have h1 : find_wire_lab_color [[(100, 128, 128)]] = (some 100, none, none) := by
    norm_num [find_wire_lab_color, maskedImg, maskPixel, maskChannel, binVals, imgWidth,
      nanmean, nanmedian, medianOfList, sortRat, insertSorted, WHITE_LAB_COLOR,
      dfltMaskedPix, List.range_succ, filterMap_id_cons_none, filterMap_id_cons_some,
      List.getD]
    simp [filterMap_id_cons_none, filterMap_id_cons_some, List.getD]
  have h2 : find_wire_lab_color_pixelmask [[(100, 128, 128)]] =
      (some 100, some 128, some 128) := by
    norm_num [find_wire_lab_color_pixelmask, binVals, imgWidth, nanmean, nanmedian,
      medianOfList, sortRat, insertSorted, WHITE_LAB_COLOR, dfltMaskedPix, List.range_succ,
      filterMap_id_cons_none, filterMap_id_cons_some, List.getD]
    simp [filterMap_id_cons_none, filterMap_id_cons_some, List.getD]
  refine ⟨h1, h2, ?_⟩
  rw [h1, h2]
  simp

/-- C6: a wire crop consisting entirely of background-white pixels yields
`none` ("no data") in all three channels, and a fully defined color compared
with the all-undefined color by `is_same_wire_color` yields False (for every
threshold), so an undefined wire color never produces a sequence match. -/
theorem undefined_color_never_matches :
    (∀ img : LabImg, (∀ row ∈ img, ∀ p ∈ row, p = WHITE_LAB_COLOR) →
        find_wire_lab_color img = (none, none, none)) ∧
    ∀ (c : WireLab) (t : ℝ), (∃ l a b : ℝ, c = (some l, some a, some b)) →
      ∀ u : WireLab, u = (none, none, none) → is_same_wire_color c u t = false := by
  constructor
  · intro img hwhite
    have hmasked : ∀ row ∈ maskedImg img, ∀ x ∈ row, x = dfltMaskedPix := by
      intro row hrow x hx
      rw [maskedImg, List.mem_map] at hrow
      obtain ⟨row0, hrow0, rfl⟩ := hrow
      rw [List.mem_map] at hx
      obtain ⟨p, hp, rfl⟩ := hx
      rw [hwhite row0 hrow0 p hp]
      decide
    have hbin : ∀ (proj : Option ℚ × Option ℚ × Option ℚ → Option ℚ),
        proj dfltMaskedPix = none →
        ∀ v ∈ binVals (maskedImg img) (imgWidth img) proj, v = none := by
      intro proj hproj v hv
      rw [binVals, List.mem_map] at hv
      obtain ⟨bin, -, rfl⟩ := hv
      refine nanmean_eq_none fun x hx => ?_
      rw [List.mem_map] at hx
      obtain ⟨row, hrow, rfl⟩ := hx
      rw [getD_of_all_eq (hmasked row hrow) bin, hproj]
    unfold find_wire_lab_color
    simp only [Prod.mk.injEq]
    exact ⟨nanmedian_eq_none (hbin _ rfl), nanmedian_eq_none (hbin _ rfl),
      nanmedian_eq_none (hbin _ rfl)⟩
  · rintro c t ⟨l, a, b, rfl⟩ u rfl
    rfl

/-- Witness for C6 at a concrete all-white 2×1 crop and a concrete defined
color against the undefined color at threshold 0. -/
theorem undefined_color_never_matches_witness :
    find_wire_lab_color [[(255, 128, 128)], [(255, 128, 128)]] = (none, none, none) ∧
    is_same_wire_color ((some 1 : Option ℝ), some 2, some 3) (none, none, none) 0 = false :=
  ⟨undefined_color_never_matches.1 [[(255, 128, 128)], [(255, 128, 128)]] (by decide),
   undefined_color_never_matches.2 ((some 1 : Option ℝ), some 2, some 3) 0
     ⟨1, 2, 3, rfl⟩ (none, none, none) rfl⟩

/-- C1: for every connector contour and white-background frame (and every
interpretation of the external image primitives), `find_wire_roi` crops the
ROI at the solver's straightening angle, checks it with `is_valid_wire_roi`
(threshold the crop at the near-255 cutoff and test for a contour exceeding
the minimum area), and when that check fails retries exactly once with the
angle flipped (angle − 90 if positive, else angle + 90), returning the second
crop without any further validity check; the display image is built with the
final angle. -/
theorem roi_retry_once {Frame Gray : Type} (ipt : IPT Frame Gray)
    (ori_frame frame_white_bg : Frame) (connector_contour : List Pix) (flag : Bool) :
    (find_wire_roi ipt ori_frame frame_white_bg connector_contour flag =
      (let connector_rect := ipt.minAreaRect connector_contour
       let wh := get_obj_actual_width_and_height connector_rect flag
       let cfg : WireRoiConfig := ⟨truncI wh.1, 28, 15⟩
       let center := get_roi_center connector_rect wh.2 15
       let a0 := get_straigten_rotation_angle connector_rect flag
       let roi0 := get_wire_roi ipt frame_white_bg connector_rect a0 cfg center
       let a1 := if 0 < a0 then a0 - 90 else a0 + 90
       (if is_valid_wire_roi ipt roi0 then roi0
        else get_wire_roi ipt frame_white_bg connector_rect a1 cfg center,
        get_display_image ipt ori_frame connector_rect cfg center
          (if is_valid_wire_roi ipt roi0 then a0 else a1)))) ∧
    ∀ roi : Frame, is_valid_wire_roi ipt roi =
      has_contour_of_size (ipt.thresholdBinaryInv (ipt.cvtColorBgr2Gray roi) 254 255)
        ACCEPTABLE_AREA_IN_WIRE_ROI ipt.contourArea := by
  constructor
  · simp only [find_wire_roi]
    split <;> simp_all
  · intro roi
    rfl
